import Mathlib

/-!
Verification development for the zstd-runtime-reader repository.

The repository's TypeScript layer (`zstd-pack.ts`) is embedded directly:
`ZstPackage` and its methods (`list`, `getBytes`, `getBlob`, `getURL`,
`getText`, `dispose`, `encode`), `mimeFromPath` and the MIME table.
The wasm core `ZstdReader` (crate `zstd_streaming_reader`) is present in
the repository only as a `.d.ts` declaration, so it is modelled from the
spec (archive index layout, eager validation, per-frame random access).
Bytes are `List Nat`; fallible operations return `Except ZstError`;
methods that may touch instance state are written in state-passing style,
returning the package (and, for object URLs, the URL registry) observable
after the call.
-/

abbrev Bytes := List Nat

/-- The closed error taxonomy of the spec (§7), plus the repository's
`encode` stub error. -/
inductive ZstError where
  | openTruncated
  | openMagicMismatch
  | openBadVersion
  | openOutOfBounds
  | openOverlap
  | openDuplicatePath
  | pathNotFound (path : String)
  | decodeError
  | closedError
  | encodeNotImplemented
deriving DecidableEq, Repr, Inhabited

/-- Whether an error is one of the `OpenError` kinds of the spec (§7). -/
def ZstError.isOpenError : ZstError → Bool
  | .openTruncated => true
  | .openMagicMismatch => true
  | .openBadVersion => true
  | .openOutOfBounds => true
  | .openOverlap => true
  | .openDuplicatePath => true
  | _ => false

/-- Little-endian 32-bit encoding of a natural number (fixed-width integer
fields of the archive index, spec §6). -/
def u32le (n : Nat) : Bytes :=
  [n % 256, n / 256 % 256, n / 65536 % 256, n / 16777216 % 256]

/-- Read one little-endian 32-bit field from the front of a byte stream. -/
def parseU32 : Bytes → Except ZstError (Nat × Bytes)
  | b0 :: b1 :: b2 :: b3 :: rest =>
      .ok (b0 + 256 * b1 + 65536 * b2 + 16777216 * b3, rest)
  | _ => .error .openTruncated

/-- Split off exactly `n` bytes from the front of a byte stream. -/
def takeN (n : Nat) (bs : Bytes) : Except ZstError (Bytes × Bytes) :=
  if n ≤ bs.length then .ok (bs.take n, bs.drop n) else .error .openTruncated

/-- One index entry (spec §3): path, frame location and declared sizes.
The optional checksum field of the spec is omitted (it is optional and the
modelled codec has no checksum). -/
structure IndexEntry where
  path : String
  compressedOffset : Nat
  compressedLength : Nat
  decompressedLength : Nat
deriving DecidableEq, Repr, Inhabited

/-- Serialisation of a path as fixed-width code points. The spec leaves the
exact field widths of the index an implementation choice (§6); each
character is stored as one 32-bit code point. -/
def charsBytes : List Char → Bytes
  | [] => []
  | c :: cs => u32le c.toNat ++ charsBytes cs

def pathBytes (s : String) : Bytes := charsBytes s.data

/-- Serialisation of one index entry (spec §6 record layout). -/
def entryBytes (e : IndexEntry) : Bytes :=
  u32le e.path.length ++ pathBytes e.path ++ u32le e.compressedOffset ++
    u32le e.compressedLength ++ u32le e.decompressedLength

/-- Parse `n` serialised characters. -/
def parseChars : Nat → Bytes → Except ZstError (List Char × Bytes)
  | 0, bs => .ok ([], bs)
  | n + 1, bs =>
    match parseU32 bs with
    | .error e => .error e
    | .ok (cp, bs1) =>
      match parseChars n bs1 with
      | .error e => .error e
      | .ok (cs, bs2) => .ok (Char.ofNat cp :: cs, bs2)

/-- Parse one index entry record. -/
def parseEntry (bs : Bytes) : Except ZstError (IndexEntry × Bytes) :=
  match parseU32 bs with
  | .error e => .error e
  | .ok (plen, bs1) =>
    match parseChars plen bs1 with
    | .error e => .error e
    | .ok (cs, bs2) =>
      match parseU32 bs2 with
      | .error e => .error e
      | .ok (off, bs3) =>
        match parseU32 bs3 with
        | .error e => .error e
        | .ok (len, bs4) =>
          match parseU32 bs4 with
          | .error e => .error e
          | .ok (dlen, bs5) => .ok (⟨String.mk cs, off, len, dlen⟩, bs5)

/-- Parse `n` consecutive index entry records. -/
def parseEntries : Nat → Bytes → Except ZstError (List IndexEntry × Bytes)
  | 0, bs => .ok ([], bs)
  | n + 1, bs =>
    match parseEntry bs with
    | .error e => .error e
    | .ok (e, bs1) =>
      match parseEntries n bs1 with
      | .error e2 => .error e2
      | .ok (es, bs2) => .ok (e :: es, bs2)

/-- Validation (spec §4.1): an entry's frame range falls inside the archive. -/
def entryInBounds (total : Nat) (e : IndexEntry) : Bool :=
  decide (e.compressedOffset + e.compressedLength ≤ total)

/-- Validation (spec §4.1): two entries' frame ranges do not overlap. -/
def rangesDisjoint (a b : IndexEntry) : Bool :=
  decide (a.compressedOffset + a.compressedLength ≤ b.compressedOffset) ||
    decide (b.compressedOffset + b.compressedLength ≤ a.compressedOffset)

/-- Validation (spec §4.1): all ranges pairwise non-overlapping. -/
def pairwiseDisjoint : List IndexEntry → Bool
  | [] => true
  | e :: es => es.all (fun x => rangesDisjoint e x) && pairwiseDisjoint es

/-- Validation (spec §4.1): no duplicate path. -/
def pathsUnique : List IndexEntry → Bool
  | [] => true
  | e :: es => !(es.any (fun x => x.path == e.path)) && pathsUnique es

/-- Fixed magic sequence of the modelled container (spec §4.1: a fixed magic
sequence, unambiguous and checked before anything else is trusted). -/
def MAGIC : Bytes := [90, 83, 84, 80]

def FORMAT_VERSION : Nat := 1

/-- Modelled from the spec: the Frame Codec (§4.2) lives in the missing wasm
core. It is instantiated as a stored-frame codec — the frame holds the
entry's bytes and `decode` enforces the declared-length contract: a
mismatch is a `DecodeError`, never silently truncated or padded output. -/
def frameDecode (frame : Bytes) (declaredLength : Nat) : Except ZstError Bytes :=
  if frame.length = declaredLength then .ok frame else .error .decodeError

/-- Modelled from the spec: the writer side of the Frame Codec (§4.2), the
inverse of `frameDecode` for well-formed frames. -/
def frameEncode (b : Bytes) : Bytes := b

/-- Modelled from the spec: the wasm `ZstdReader` instance — the archive
bytes plus the index parsed and validated once at open time (§3, §4.3). -/
structure ZstdReader where
  data : Bytes
  entries : List IndexEntry
deriving DecidableEq, Repr, Inhabited

/-- Modelled from the spec: the wasm `ZstdReader` constructor, absent from
src/ (only declared in the `.d.ts`). It parses the archive index and
performs all validation eagerly (§4.1): magic mismatch, unsupported
version, truncated input, out-of-bounds ranges, overlapping ranges and
duplicate paths are each rejected with a typed open error. -/
def ZstdReader.new (data : Bytes) : Except ZstError ZstdReader :=
  match takeN 4 data with
  | .error e => .error e
  | .ok (magic, bs1) =>
    if magic = MAGIC then
      match parseU32 bs1 with
      | .error e => .error e
      | .ok (ver, bs2) =>
        if ver = FORMAT_VERSION then
          match parseU32 bs2 with
          | .error e => .error e
          | .ok (count, bs3) =>
            match parseEntries count bs3 with
            | .error e => .error e
            | .ok (entries, _) =>
              if entries.all (entryInBounds data.length) then
                if pairwiseDisjoint entries then
                  if pathsUnique entries then .ok ⟨data, entries⟩
                  else .error .openDuplicatePath
                else .error .openOverlap
              else .error .openOutOfBounds
        else .error .openBadVersion
    else .error .openMagicMismatch

/-- Modelled from the spec: `get_file_list` of the wasm reader. The source
glue decodes its result as JSON text and parses it into the path array; the
spec (§9) records that the wire format of this list is not determinable
from the interface, so the JSON text transport is collapsed and the
modelled reader hands back the path list itself, in the archive's canonical
(insertion) order. -/
def ZstdReader.get_file_list (r : ZstdReader) : List String :=
  r.entries.map (fun e => e.path)

/-- Modelled from the spec: `extract_file` of the wasm reader (§4.3): look
up the path in the index, slice the archive at the entry's frame range, and
decode exactly that region. -/
def ZstdReader.extract_file (r : ZstdReader) (path : String) : Except ZstError Bytes :=
  match r.entries.find? (fun e => e.path == path) with
  | none => .error (.pathNotFound path)
  | some e =>
      frameDecode ((r.data.drop e.compressedOffset).take e.compressedLength)
        e.decompressedLength

/-- The wasm-bindgen boundary of the constructor: `data` is copied into
wasm memory and the caller's buffer is never written (spec §5). The second
component is the caller's buffer as observable after the call; every write
the constructor performed to it would be reflected there. -/
def ZstdReader.newWith (data : Bytes) : Except ZstError ZstdReader × Bytes :=
  (ZstdReader.new data, data)

/-- The MIME table of the source (`MIME_BY_EXT`). -/
def MIME_BY_EXT : List (String × String) :=
  [("webp", "image/webp"), ("ogg", "audio/ogg"), ("gltf", "model/gltf+json"),
    ("bin", "application/octet-stream")]

/-- Embedding of the JS `path.split(".")` call: split a character list at
every dot; splitting the empty string yields one empty group, exactly as
`"".split(".")` yields one empty string. -/
def splitOnDot : List Char → List (List Char)
  | [] => [[]]
  | c :: cs =>
    if c = '.' then [] :: splitOnDot cs
    else
      match splitOnDot cs with
      | [] => [[c]]
      | g :: gs => (c :: g) :: gs

def splitDot (s : String) : List String := (splitOnDot s.data).map String.mk

/-- Embedding of JS `toLowerCase` on the extension strings in play:
character-wise lowercasing. -/
def lowercase (s : String) : String := String.mk (s.data.map Char.toLower)

/-- A value produced by a JS property access on the MIME table: an own
entry (a MIME string), a member inherited from `Object.prototype` (a
function or object, not a MIME string), or undefined. -/
inductive JsValue where
  | str (s : String)
  | inherited (name : String)
  | undefined
deriving DecidableEq, Repr, Inhabited

/-- Model of the JS prototype chain: the property names every plain object
literal inherits from `Object.prototype` in a browser (the ECMA-262
members plus the normative-for-browsers Annex B ones). A string index into
`MIME_BY_EXT` with one of these names finds the inherited member instead
of falling through to undefined. -/
def OBJECT_PROTOTYPE_MEMBERS : List String :=
  ["constructor", "hasOwnProperty", "isPrototypeOf", "propertyIsEnumerable",
    "toLocaleString", "toString", "valueOf", "__proto__", "__defineGetter__",
    "__defineSetter__", "__lookupGetter__", "__lookupSetter__"]

/-- Embedding of the JS property access `table[key]` on an object literal:
an own entry first, otherwise the member inherited from
`Object.prototype`, otherwise undefined. -/
def jsIndex (table : List (String × String)) (key : String) : JsValue :=
  match table.lookup key with
  | some v => .str v
  | none =>
    if OBJECT_PROTOTYPE_MEMBERS.contains key then .inherited key else .undefined

/-- The source's local `ext`: the last dot-separated segment of the path,
lowercased (`path.split(".").pop()?.toLowerCase()`, with the empty string
when `pop` yields nothing). -/
def extOf (path : String) : String :=
  ((splitDot path).getLast?.map lowercase).getD ""

/-- Embedding of the source's `mimeFromPath`:
`MIME_BY_EXT[ext] ?? "application/octet-stream"`. The index is a JS
property access, so it can find a member inherited from
`Object.prototype`; the nullish-coalescing fallback replaces only an
undefined result, never an inherited member. -/
def mimeFromPath (path : String) : JsValue :=
  match jsIndex MIME_BY_EXT (extOf path) with
  | .undefined => .str "application/octet-stream"
  | v => v

/-- Statement of the claim, written from the spec's words: the MIME type is
the table lookup of the path's lowercased final dot-separated segment over
the four known extensions, and `application/octet-stream` for every other
extension. Compared against `mimeFromPath` in the corresponding theorem. -/
def mimeOfExtTable (ext : String) : String :=
  if ext = "webp" then "image/webp"
  else if ext = "ogg" then "audio/ogg"
  else if ext = "gltf" then "model/gltf+json"
  else if ext = "bin" then "application/octet-stream"
  else "application/octet-stream"

/-- A Blob value: the wrapped bytes and the attached type option, exactly
the value the source passes (`new Blob([bytes], { type: mime })`). -/
structure Blob where
  bytes : Bytes
  type : JsValue
deriving DecidableEq, Repr, Inhabited

/-- Whether a byte is a UTF-8 continuation byte. -/
def utf8Cont (b : Nat) : Bool := decide (128 ≤ b) && decide (b < 192)

/-- Model of `TextDecoder().decode` over UTF-8 input: multi-byte sequences
are assembled from their continuation bytes; a malformed lead or truncated
sequence produces the replacement character U+FFFD. -/
def utf8DecodeChars : Bytes → List Char
  | [] => []
  | b :: rest =>
    if b < 128 then Char.ofNat b :: utf8DecodeChars rest
    else if b < 194 then Char.ofNat 65533 :: utf8DecodeChars rest
    else if b < 224 then
      match rest with
      | b1 :: rest1 =>
        if utf8Cont b1 then
          Char.ofNat ((b - 192) * 64 + (b1 - 128)) :: utf8DecodeChars rest1
        else Char.ofNat 65533 :: utf8DecodeChars (b1 :: rest1)
      | [] => [Char.ofNat 65533]
    else if b < 240 then
      match rest with
      | b1 :: b2 :: rest2 =>
        if utf8Cont b1 && utf8Cont b2 then
          Char.ofNat ((b - 224) * 4096 + (b1 - 128) * 64 + (b2 - 128)) ::
            utf8DecodeChars rest2
        else Char.ofNat 65533 :: utf8DecodeChars (b1 :: b2 :: rest2)
      | _ => [Char.ofNat 65533]
    else if b < 245 then
      match rest with
      | b1 :: b2 :: b3 :: rest3 =>
        if utf8Cont b1 && utf8Cont b2 && utf8Cont b3 then
          Char.ofNat ((b - 240) * 262144 + (b1 - 128) * 4096 +
            (b2 - 128) * 64 + (b3 - 128)) :: utf8DecodeChars rest3
        else Char.ofNat 65533 :: utf8DecodeChars (b1 :: b2 :: b3 :: rest3)
      | _ => [Char.ofNat 65533]
    else Char.ofNat 65533 :: utf8DecodeChars rest
termination_by bs => bs.length

def utf8Decode (bs : Bytes) : String := String.mk (utf8DecodeChars bs)

/-- Model of the browser's object-URL registry: a counter for fresh
`blob:` URL generation and the list of created, not yet revoked URLs. -/
structure UrlEnv where
  nextId : Nat
  live : List String
deriving DecidableEq, Repr, Inhabited

/-- Model of `URL.createObjectURL`: a fresh URL each call. -/
def createObjectURL (env : UrlEnv) (_blob : Blob) : String × UrlEnv :=
  let url := "blob:" ++ toString env.nextId
  (url, ⟨env.nextId + 1, env.live ++ [url]⟩)

/-- Model of `URL.revokeObjectURL`: the URL stops being live. -/
def revokeObjectURL (env : UrlEnv) (url : String) : UrlEnv :=
  ⟨env.nextId, env.live.filter (fun v => v != url)⟩

def revokeAll (env : UrlEnv) (cache : List (String × String)) : UrlEnv :=
  cache.foldl (fun e kv => revokeObjectURL e kv.2) env

/-- Embedding of the `ZstPackage` instance state: the wasm reader, whether
`reader.free()` has run, the parsed `fileIndex`, and the `urlCache`
(path to blob URL, in insertion order, as a JS Map). -/
structure ZstPackage where
  reader : ZstdReader
  readerFreed : Bool
  fileIndex : List String
  urlCache : List (String × String)
deriving DecidableEq, Repr, Inhabited

/-- Embedding of `ZstPackage.open` on an already-resident byte buffer (the
`ArrayBuffer` and `Uint8Array` branches of the source; the URL-string
branch performs a network fetch of the same bytes, outside the core). The
private constructor runs eagerly: the wasm reader is built and the file
index parsed before the handle is returned. The second component is the
caller's buffer as observable after the call (spec §5: `open` must not
mutate the input buffer). -/
def ZstPackage.openWith (source : Bytes) : Except ZstError ZstPackage × Bytes :=
  let rb := ZstdReader.newWith source
  (match rb.1 with
   | .error e => .error e
   | .ok reader =>
       .ok ⟨reader, false, reader.get_file_list, []⟩,
   rb.2)

def ZstPackage.openPkg (source : Bytes) : Except ZstError ZstPackage :=
  (ZstPackage.openWith source).1

/-- Embedding of the private `assertPath`: reject a path absent from the
file index with the path-not-found error. -/
def ZstPackage.assertPath (pkg : ZstPackage) (path : String) : Except ZstError Unit :=
  if pkg.fileIndex.contains path then .ok () else .error (.pathNotFound path)

/-- Embedding of `list()`: returns `this.fileIndex`, nothing else. -/
def ZstPackage.list (pkg : ZstPackage) : List String := pkg.fileIndex

/-- Embedding of `getBytes`: `assertPath` first, then the wasm
`extract_file`. The call into a freed reader is the one behavior decided
by the missing wasm-bindgen glue; modelled from the spec, which names the
after-close failure `ClosedError` (§7). The second component is the
package state after the call (the source mutates nothing here). -/
def ZstPackage.getBytes (pkg : ZstPackage) (path : String) :
    Except ZstError Bytes × ZstPackage :=
  (match pkg.assertPath path with
   | .error e => .error e
   | .ok _ =>
     if pkg.readerFreed then .error .closedError
     else pkg.reader.extract_file path,
   pkg)

/-- Embedding of `getBlob`: the bytes from `getBytes` wrapped with the MIME
type from `mimeFromPath`. -/
def ZstPackage.getBlob (pkg : ZstPackage) (path : String) :
    Except ZstError Blob × ZstPackage :=
  match pkg.getBytes path with
  | (.ok bytes, pkg1) => (.ok ⟨bytes, mimeFromPath path⟩, pkg1)
  | (.error e, pkg1) => (.error e, pkg1)

/-- Embedding of `getURL`: answer from the `urlCache` when the path is
cached; otherwise build the blob, create a fresh object URL, and cache it. -/
def ZstPackage.getURL (pkg : ZstPackage) (env : UrlEnv) (path : String) :
    Except ZstError String × ZstPackage × UrlEnv :=
  match pkg.urlCache.lookup path with
  | some url => (.ok url, pkg, env)
  | none =>
    match pkg.getBlob path with
    | (.error e, pkg1) => (.error e, pkg1, env)
    | (.ok blob, pkg1) =>
      let r := createObjectURL env blob
      (.ok r.1, ⟨pkg1.reader, pkg1.readerFreed, pkg1.fileIndex,
        pkg1.urlCache ++ [(path, r.1)]⟩, r.2)

/-- Embedding of `getText`: the bytes of `getBytes` decoded as UTF-8. -/
def ZstPackage.getText (pkg : ZstPackage) (path : String) :
    Except ZstError String × ZstPackage :=
  match pkg.getBytes path with
  | (.ok bytes, pkg1) => (.ok (utf8Decode bytes), pkg1)
  | (.error e, pkg1) => (.error e, pkg1)

/-- Embedding of `dispose`: revoke every cached blob URL, clear the cache,
and free the wasm reader. -/
def ZstPackage.dispose (pkg : ZstPackage) (env : UrlEnv) : ZstPackage × UrlEnv :=
  (⟨pkg.reader, true, pkg.fileIndex, []⟩, revokeAll env pkg.urlCache)

/-- Embedding of the static `encode` stub: it unconditionally throws
"Encode not implemented". -/
def ZstPackage.encode : Except ZstError Bytes := .error .encodeNotImplemented

/-- Modelled from the spec: header size bookkeeping of the archive writer
(§6). One entry record is 16 bytes of fixed-width fields plus 4 bytes per
path character. -/
def entriesHeaderSize : List (String × Bytes) → Nat
  | [] => 0
  | (p, _) :: rest => (16 + 4 * p.length) + entriesHeaderSize rest

def headerSize (files : List (String × Bytes)) : Nat :=
  12 + entriesHeaderSize files

def framesLen : List (String × Bytes) → Nat
  | [] => 0
  | (_, b) :: rest => (frameEncode b).length + framesLen rest

/-- Modelled from the spec: the concatenated frames region, one frame per
entry in order (§6). -/
def framesJoin : List (String × Bytes) → Bytes
  | [] => []
  | (_, b) :: rest => frameEncode b ++ framesJoin rest

/-- Modelled from the spec: the index entries a writer produces — offsets
are absolute into the archive, assigned consecutively after the header,
with the declared decompressed length of each entry (§3, §6). -/
def indexEntries : Nat → List (String × Bytes) → List IndexEntry
  | _, [] => []
  | off, (p, b) :: rest =>
      ⟨p, off, (frameEncode b).length, b.length⟩ ::
        indexEntries (off + (frameEncode b).length) rest

def entriesBytes : List IndexEntry → Bytes
  | [] => []
  | e :: es => entryBytes e ++ entriesBytes es

def headerBytes (files : List (String × Bytes)) : Bytes :=
  MAGIC ++ u32le FORMAT_VERSION ++ u32le files.length ++
    entriesBytes (indexEntries (headerSize files) files)

/-- Modelled from the spec: the archive writer (§6 layout). The
repository's own `encode` is an unimplemented stub and the companion
encoder tool is external to the repository; this encoder realises the
format's writer invariants (§4.1) for the round-trip property (§8). -/
def encodeArchive (files : List (String × Bytes)) : Bytes :=
  headerBytes files ++ framesJoin files

/-- The spec's §8 example scenario: an archive built from two small files. -/
def exampleFiles : List (String × Bytes) := [("a.bin", [1, 2, 3]), ("b.bin", [9, 9])]

def exampleArchive : Bytes := encodeArchive exampleFiles

def examplePkg : ZstPackage :=
  match ZstPackage.openPkg exampleArchive with
  | .ok pkg => pkg
  | .error _ => default

def exampleEnv : UrlEnv := ⟨0, []⟩

def examplePkgCached : ZstPackage :=
  (examplePkg.getURL exampleEnv "a.bin").2.1

def exampleEnvAfter : UrlEnv :=
  (examplePkg.getURL exampleEnv "a.bin").2.2

/-! Helper lemmas. -/

theorem contains_eq_true_iff {l : List String} {a : String} :
    l.contains a = true ↔ a ∈ l := by
  simp [List.contains_iff_exists_mem_beq]

theorem lowercase_empty : lowercase "" = "" := rfl

theorem lookup_mime_eq (s : String) :
    (MIME_BY_EXT.lookup s).getD "application/octet-stream" = mimeOfExtTable s := by
  simp only [MIME_BY_EXT, List.lookup, mimeOfExtTable]
  by_cases h1 : s = "webp"
  · subst h1; simp
  · by_cases h2 : s = "ogg"
    · subst h2; simp
    · by_cases h3 : s = "gltf"
      · subst h3; simp
      · by_cases h4 : s = "bin"
        · subst h4; simp
        · simp [beq_eq_false_iff_ne.mpr h1, beq_eq_false_iff_ne.mpr h2,
            beq_eq_false_iff_ne.mpr h3, beq_eq_false_iff_ne.mpr h4, h1, h2, h3, h4]

/-! The claims. -/

/-- C4: extraction is order-invariant and repeatable: `getBytes` leaves the
package state untouched, extracting another path first (missing or present)
does not change a path's result, and repeated extraction of the same path
yields the identical bytes each time; since results are immutable values of
the embedding, the returned buffer shares no mutable state with the
engine. -/
theorem getBytes_order_invariant (pkg : ZstPackage) (p q : String) :
    (pkg.getBytes p).2 = pkg
    ∧ ((pkg.getBytes q).2.getBytes p).1 = (pkg.getBytes p).1
    ∧ ((pkg.getBytes p).2.getBytes p).1 = (pkg.getBytes p).1 :=
  ⟨rfl, rfl, rfl⟩

/-- C7: `open` does not mutate the supplied buffer — the bytes observable
in the caller's buffer after the call, whether it succeeds or fails, are
the input bytes. -/
theorem openWith_buffer_unchanged (bytes : Bytes) :
    (ZstPackage.openWith bytes).2 = bytes := rfl

/-- C2 (amended): after `dispose`, `list` does not fail with a closed
error — it still returns the file index unchanged (the source returns
`this.fileIndex` without any closed check); `getBytes` on a path present in
the index fails with the after-close error (the call into the freed wasm
reader, which the spec names `ClosedError`), while `getBytes` on an absent
path still fails with `PathNotFound`, because the path check precedes the
reader call. -/
theorem dispose_closed_semantics (pkg : ZstPackage) (env : UrlEnv) (p q : String) :
    ((pkg.dispose env).1).list = pkg.list
    ∧ (p ∈ pkg.fileIndex →
        (((pkg.dispose env).1).getBytes p).1 = .error .closedError)
    ∧ (¬ q ∈ pkg.fileIndex →
        (((pkg.dispose env).1).getBytes q).1 = .error (.pathNotFound q)) := by
  refine ⟨rfl, ?_, ?_⟩
  · intro hp
    simp [ZstPackage.getBytes, ZstPackage.assertPath, ZstPackage.dispose, hp]
  · intro hq
    simp [ZstPackage.getBytes, ZstPackage.assertPath, ZstPackage.dispose, hq]

theorem dispose_closed_semantics_witness :
    ((examplePkg.dispose exampleEnv).1).list = examplePkg.list
    ∧ (((examplePkg.dispose exampleEnv).1).getBytes "a.bin").1 = .error .closedError
    ∧ (((examplePkg.dispose exampleEnv).1).getBytes "c.bin").1 =
        .error (.pathNotFound "c.bin") :=
  ⟨(dispose_closed_semantics examplePkg exampleEnv "a.bin" "c.bin").1,
   (dispose_closed_semantics examplePkg exampleEnv "a.bin" "c.bin").2.1 (by decide),
   (dispose_closed_semantics examplePkg exampleEnv "a.bin" "c.bin").2.2 (by decide)⟩

/-- C2 (counterexample): on the spec's own example package, `list` called
after `dispose` returns the full path list — it does not fail with a
`ClosedError` (its return type cannot even express a failure). -/
theorem list_after_dispose_counterexample :
    ((examplePkg.dispose exampleEnv).1).list = ["a.bin", "b.bin"] := by rfl

/-- C9 (counterexample): `"constructor"` is an extension outside the MIME
table, yet `mimeFromPath` returns the member inherited from
`Object.prototype` rather than `application/octet-stream`: the JS index
finds the inherited member and the nullish-coalescing fallback replaces
only undefined. -/
theorem mimeFromPath_constructor_counterexample :
    mimeFromPath "a.constructor" = .inherited "constructor"
    ∧ mimeFromPath "a.constructor" ≠ .str "application/octet-stream" := by
  exact ⟨rfl, by decide⟩

/-- C9 (amended): the type attached by `getBlob` is exactly
`mimeFromPath`; for every path whose lowercased final dot-separated
segment does not name an `Object.prototype` member, `mimeFromPath` is the
table lookup string over the four known extensions with
`application/octet-stream` for everything else (including paths with no
dot); but when the segment names an inherited member (the lowercase-stable
ones being `constructor` and `__proto__`), the JS index finds the
inherited non-MIME member and returns it instead of the octet-stream
fallback; `mimeFromPath` stays total and deterministic over all strings. -/
theorem mimeFromPath_table_prototype_spec (path : String) (pkg : ZstPackage) :
    (¬ extOf path ∈ OBJECT_PROTOTYPE_MEMBERS →
      mimeFromPath path = .str (mimeOfExtTable (extOf path)))
    ∧ (extOf path ∈ OBJECT_PROTOTYPE_MEMBERS →
      mimeFromPath path = .inherited (extOf path))
    ∧ (∀ blob pkg1, pkg.getBlob path = (.ok blob, pkg1) →
        blob.type = mimeFromPath path) := by
  refine ⟨?_, ?_, ?_⟩
  · intro hnotm
    have hmime := lookup_mime_eq (extOf path)
    unfold mimeFromPath jsIndex
    cases hl : MIME_BY_EXT.lookup (extOf path) with
    | some v =>
      rw [hl] at hmime
      simp only [Option.getD_some] at hmime
      simp [hmime]
    | none =>
      rw [hl] at hmime
      simp only [Option.getD_none] at hmime
      simp [hnotm, ← hmime]
  · intro hm
    have hl : MIME_BY_EXT.lookup (extOf path) = none := by
      have hall : ∀ s ∈ OBJECT_PROTOTYPE_MEMBERS, MIME_BY_EXT.lookup s = none := by
        decide
      exact hall _ hm
    unfold mimeFromPath jsIndex
    simp [hl, hm]
  · intro blob pkg1 h
    unfold ZstPackage.getBlob at h
    rcases h2 : pkg.getBytes path with ⟨r, pkg2⟩
    rw [h2] at h
    cases r with
    | ok bytes =>
      simp at h
      rw [← h.1]
    | error e => simp at h

theorem mimeFromPath_table_prototype_spec_witness :
    mimeFromPath "hero.WEBP" = .str (mimeOfExtTable (extOf "hero.WEBP"))
    ∧ mimeFromPath "x.__proto__" = .inherited (extOf "x.__proto__")
    ∧ (Blob.mk [1, 2, 3] (.str "application/octet-stream")).type =
        mimeFromPath "a.bin" :=
  ⟨(mimeFromPath_table_prototype_spec "hero.WEBP" examplePkg).1 (by decide),
   (mimeFromPath_table_prototype_spec "x.__proto__" examplePkg).2.1 (by decide),
   (mimeFromPath_table_prototype_spec "a.bin" examplePkg).2.2
     ⟨[1, 2, 3], .str "application/octet-stream"⟩ examplePkg (by rfl)⟩

/-- C10: `getText` is exactly the UTF-8 decoding of the bytes `getBytes`
returns — it succeeds with the decoded string when `getBytes` succeeds,
fails with the identical error when `getBytes` fails (the same
path-not-found precondition), and leaves the same package state. -/
theorem getText_utf8_of_getBytes (pkg : ZstPackage) (path : String) :
    (pkg.getText path).2 = (pkg.getBytes path).2
    ∧ (∀ bs pkg1, pkg.getBytes path = (.ok bs, pkg1) →
        pkg.getText path = (.ok (utf8Decode bs), pkg1))
    ∧ (∀ e pkg1, pkg.getBytes path = (.error e, pkg1) →
        pkg.getText path = (.error e, pkg1)) := by
  rcases h : pkg.getBytes path with ⟨r, pkgA⟩
  cases r with
  | ok bs =>
    refine ⟨by simp [ZstPackage.getText, h], ?_, ?_⟩
    · intro bs2 pkg2 h2
      simp only [Prod.mk.injEq, Except.ok.injEq] at h2
      simp [ZstPackage.getText, h, h2.1, h2.2]
    · intro e pkg2 h2
      simp at h2
  | error e =>
    refine ⟨by simp [ZstPackage.getText, h], ?_, ?_⟩
    · intro bs2 pkg2 h2
      simp at h2
    · intro e2 pkg2 h2
      simp only [Prod.mk.injEq, Except.error.injEq] at h2
      simp [ZstPackage.getText, h, h2.1, h2.2]

theorem getText_utf8_of_getBytes_witness :
    (examplePkg.getText "a.bin").2 = (examplePkg.getBytes "a.bin").2
    ∧ examplePkg.getText "a.bin" = (.ok (utf8Decode [1, 2, 3]), examplePkg)
    ∧ examplePkg.getText "c.bin" =
        (.error (.pathNotFound "c.bin"), examplePkg) :=
  ⟨(getText_utf8_of_getBytes examplePkg "a.bin").1,
   (getText_utf8_of_getBytes examplePkg "a.bin").2.1 [1, 2, 3] examplePkg (by rfl),
   (getText_utf8_of_getBytes examplePkg "c.bin").2.2 (.pathNotFound "c.bin")
     examplePkg (by rfl)⟩

theorem parseU32_error_eq {bs : Bytes} {e : ZstError}
    (h : parseU32 bs = .error e) : e = .openTruncated := by
  unfold parseU32 at h
  split at h <;> simp_all

theorem takeN_error_eq {n : Nat} {bs : Bytes} {e : ZstError}
    (h : takeN n bs = .error e) : e = .openTruncated := by
  unfold takeN at h
  split at h <;> simp_all

theorem parseChars_error_eq : ∀ {n : Nat} {bs : Bytes} {e : ZstError},
    parseChars n bs = .error e → e = .openTruncated := by
  intro n
  induction n with
  | zero => intro bs e h; simp [parseChars] at h
  | succ m ih =>
    intro bs e h
    unfold parseChars at h
    split at h
    next heq => cases h; exact parseU32_error_eq heq
    next cp bs1 heq =>
      split at h
      next heq2 => cases h; exact ih heq2
      next => cases h

theorem parseEntry_error_eq {bs : Bytes} {e : ZstError}
    (h : parseEntry bs = .error e) : e = .openTruncated := by
  unfold parseEntry at h
  repeat' split at h
  all_goals first
    | (cases h; exact parseU32_error_eq (by assumption))
    | (cases h; exact parseChars_error_eq (by assumption))
    | cases h

theorem parseEntries_error_eq : ∀ {n : Nat} {bs : Bytes} {e : ZstError},
    parseEntries n bs = .error e → e = .openTruncated := by
  intro n
  induction n with
  | zero => intro bs e h; simp [parseEntries] at h
  | succ m ih =>
    intro bs e h
    unfold parseEntries at h
    split at h
    next heq => cases h; exact parseEntry_error_eq heq
    next x bs1 heq =>
      split at h
      next heq2 => cases h; exact ih heq2
      next => cases h

theorem new_error_isOpen {data : Bytes} {e : ZstError}
    (h : ZstdReader.new data = .error e) : e.isOpenError = true := by
  unfold ZstdReader.new at h
  split at h
  next heq => cases h; rw [takeN_error_eq heq]; rfl
  next magic bs1 heq =>
    split at h
    case isTrue hmagic =>
      split at h
      next heq2 => cases h; rw [parseU32_error_eq heq2]; rfl
      next ver bs2 heq2 =>
        split at h
        case isTrue hver =>
          split at h
          next heq3 => cases h; rw [parseU32_error_eq heq3]; rfl
          next count bs3 heq3 =>
            split at h
            next heq4 => cases h; rw [parseEntries_error_eq heq4]; rfl
            next entries rest heq4 =>
              split at h
              case isTrue hbounds =>
                split at h
                case isTrue hdisj =>
                  split at h
                  case isTrue huniq => cases h
                  case isFalse huniq => cases h; rfl
                case isFalse hdisj => cases h; rfl
              case isFalse hbounds => cases h; rfl
        case isFalse hver => cases h; rfl
    case isFalse hmagic => cases h; rfl

theorem new_ok_spec {data : Bytes} {r : ZstdReader}
    (h : ZstdReader.new data = .ok r) :
    r.data = data
    ∧ data.take 4 = MAGIC
    ∧ (∃ rest, parseU32 (data.drop 4) = .ok (FORMAT_VERSION, rest))
    ∧ r.entries.all (entryInBounds data.length) = true
    ∧ pairwiseDisjoint r.entries = true
    ∧ pathsUnique r.entries = true := by
  unfold ZstdReader.new at h
  split at h
  next heq => cases h
  next magic bs1 heq =>
    split at h
    case isTrue hmagic =>
      split at h
      next heq2 => cases h
      next ver bs2 heq2 =>
        split at h
        case isTrue hver =>
          split at h
          next heq3 => cases h
          next count bs3 heq3 =>
            split at h
            next heq4 => cases h
            next entries rest heq4 =>
              split at h
              case isTrue hbounds =>
                split at h
                case isTrue hdisj =>
                  split at h
                  case isTrue huniq =>
                    cases h
                    unfold takeN at heq
                    split at heq
                    case isTrue hle =>
                      simp only [Except.ok.injEq, Prod.mk.injEq] at heq
                      refine ⟨rfl, ?_, ?_, hbounds, hdisj, huniq⟩
                      · rw [heq.1, hmagic]
                      · rw [← heq.2] at heq2
                        rw [hver] at heq2
                        exact ⟨bs2, heq2⟩
                    case isFalse hle => cases heq
                  case isFalse huniq => cases h
                case isFalse hdisj => cases h
              case isFalse hbounds => cases h
        case isFalse hver => cases h
    case isFalse hmagic => cases h

/-- C5: `openPkg` never partially succeeds — it returns either a handle
whose index is fully built (file index populated from the reader, URL cache
empty, reader live) and on which every open-time validation has passed
(magic, version, in-bounds ranges, pairwise non-overlapping ranges, unique
paths), or a typed open error; no other error kind can escape `open`. -/
theorem openPkg_eager_validation (bytes : Bytes) :
    match ZstPackage.openPkg bytes with
    | .ok pkg =>
        pkg.readerFreed = false ∧ pkg.urlCache = []
        ∧ pkg.fileIndex = pkg.reader.get_file_list
        ∧ pkg.reader.data = bytes
        ∧ bytes.take 4 = MAGIC
        ∧ (∃ rest, parseU32 (bytes.drop 4) = .ok (FORMAT_VERSION, rest))
        ∧ pkg.reader.entries.all (entryInBounds bytes.length) = true
        ∧ pairwiseDisjoint pkg.reader.entries = true
        ∧ pathsUnique pkg.reader.entries = true
    | .error e => e.isOpenError = true := by
  unfold ZstPackage.openPkg ZstPackage.openWith ZstdReader.newWith
  cases h : ZstdReader.new bytes with
  | error e => exact new_error_isOpen h
  | ok reader =>
    have hs := new_ok_spec h
    exact ⟨rfl, rfl, rfl, hs.1, hs.2.1, hs.2.2.1, hs.2.2.2.1, hs.2.2.2.2.1,
      hs.2.2.2.2.2⟩

theorem parseU32_u32le (n : Nat) (rest : Bytes) (h : n < 4294967296) :
    parseU32 (u32le n ++ rest) = .ok (n, rest) := by
  simp [u32le, parseU32]
  omega

theorem char_toNat_lt (c : Char) : c.toNat < 4294967296 := c.val.toNat_lt

theorem string_length_data (s : String) : s.length = s.data.length := rfl

theorem parseChars_charsBytes (cs : List Char) (rest : Bytes) :
    parseChars cs.length (charsBytes cs ++ rest) = .ok (cs, rest) := by
  induction cs with
  | nil => simp [charsBytes, parseChars]
  | cons c cs ih =>
    simp only [charsBytes, List.length_cons, List.append_assoc, parseChars,
      parseU32_u32le c.toNat _ (char_toNat_lt c), ih, Char.ofNat_toNat]

theorem charsBytes_length (cs : List Char) : (charsBytes cs).length = 4 * cs.length := by
  induction cs with
  | nil => rfl
  | cons c cs ih =>
    simp only [charsBytes, List.length_append, ih, u32le, List.length_cons,
      List.length_nil, List.length_cons]
    omega

theorem entryBytes_length (e : IndexEntry) :
    (entryBytes e).length = 16 + 4 * e.path.length := by
  simp only [entryBytes, pathBytes, List.length_append, charsBytes_length, u32le,
    List.length_cons, List.length_nil, string_length_data]
  omega

theorem framesJoin_length (files : List (String × Bytes)) :
    (framesJoin files).length = framesLen files := by
  induction files with
  | nil => rfl
  | cons f rest ih => obtain ⟨p, b⟩ := f; simp [framesJoin, framesLen, frameEncode, ih]

theorem indexEntries_length (off : Nat) (files : List (String × Bytes)) :
    (indexEntries off files).length = files.length := by
  induction files generalizing off with
  | nil => rfl
  | cons f rest ih => obtain ⟨p, b⟩ := f; simp [indexEntries, ih]

theorem entriesBytes_indexEntries_length (off : Nat) (files : List (String × Bytes)) :
    (entriesBytes (indexEntries off files)).length = entriesHeaderSize files := by
  induction files generalizing off with
  | nil => rfl
  | cons f rest ih =>
    obtain ⟨p, b⟩ := f
    simp [indexEntries, entriesBytes, entriesHeaderSize, entryBytes_length, ih]

theorem headerBytes_length (files : List (String × Bytes)) :
    (headerBytes files).length = headerSize files := by
  simp only [headerBytes, MAGIC, u32le, List.length_append,
    entriesBytes_indexEntries_length, List.length_cons, List.length_nil, headerSize]

theorem encodeArchive_length (files : List (String × Bytes)) :
    (encodeArchive files).length = headerSize files + framesLen files := by
  simp [encodeArchive, headerBytes_length, framesJoin_length]

theorem takeN_append (n : Nat) (xs rest : Bytes) (h : xs.length = n) :
    takeN n (xs ++ rest) = .ok (xs, rest) := by
  subst h
  simp [takeN, List.length_append, List.take_left, List.drop_left]

theorem parseEntry_entryBytes (e : IndexEntry) (rest : Bytes)
    (hp : e.path.length < 4294967296) (ho : e.compressedOffset < 4294967296)
    (hl : e.compressedLength < 4294967296) (hd : e.decompressedLength < 4294967296) :
    parseEntry (entryBytes e ++ rest) = .ok (e, rest) := by
  obtain ⟨p, off, len, dlen⟩ := e
  simp only at hp ho hl hd
  rw [string_length_data] at hp
  simp only [entryBytes, pathBytes, List.append_assoc, string_length_data, parseEntry,
    parseU32_u32le p.data.length _ hp, parseChars_charsBytes p.data,
    parseU32_u32le off _ ho, parseU32_u32le len _ hl, parseU32_u32le dlen _ hd]

theorem parseEntries_entriesBytes (es : List IndexEntry) (rest : Bytes)
    (hb : ∀ e ∈ es, e.path.length < 4294967296 ∧ e.compressedOffset < 4294967296
      ∧ e.compressedLength < 4294967296 ∧ e.decompressedLength < 4294967296) :
    parseEntries es.length (entriesBytes es ++ rest) = .ok (es, rest) := by
  induction es with
  | nil => simp [entriesBytes, parseEntries]
  | cons e es ih =>
    have he := hb e (List.mem_cons_self e es)
    have hrest := fun x hx => hb x (List.mem_cons_of_mem e hx)
    simp only [entriesBytes, List.length_cons, List.append_assoc, parseEntries,
      parseEntry_entryBytes e _ he.1 he.2.1 he.2.2.1 he.2.2.2, ih hrest]

theorem indexEntries_spec (files : List (String × Bytes)) (off : Nat) :
    ∀ e ∈ indexEntries off files,
      ∃ b, (e.path, b) ∈ files ∧ e.compressedLength = b.length
        ∧ e.decompressedLength = b.length ∧ off ≤ e.compressedOffset
        ∧ e.compressedOffset + e.compressedLength ≤ off + framesLen files := by
  induction files generalizing off with
  | nil => intro e he; simp [indexEntries] at he
  | cons f rest ih =>
    obtain ⟨p, b⟩ := f
    intro e he
    simp only [indexEntries, List.mem_cons] at he
    rcases he with he | he
    · subst he
      refine ⟨b, List.mem_cons_self _ _, rfl, rfl, le_refl _, ?_⟩
      simp only [framesLen, frameEncode]
      omega
    · obtain ⟨c, hc, h1, h2, h3, h4⟩ := ih (off + (frameEncode b).length) e he
      refine ⟨c, List.mem_cons_of_mem _ hc, h1, h2, by omega, ?_⟩
      simp only [framesLen, frameEncode] at h4 ⊢
      omega

theorem indexEntries_path (off : Nat) (files : List (String × Bytes)) :
    (indexEntries off files).map (fun e => e.path) = files.map Prod.fst := by
  induction files generalizing off with
  | nil => rfl
  | cons f rest ih => obtain ⟨p, b⟩ := f; simp [indexEntries, ih]

theorem count_le_entriesHeaderSize (files : List (String × Bytes)) :
    16 * files.length ≤ entriesHeaderSize files := by
  induction files with
  | nil => simp [entriesHeaderSize]
  | cons f rest ih =>
    obtain ⟨p, b⟩ := f
    simp only [entriesHeaderSize, List.length_cons]
    omega

theorem pathSize_le_entriesHeaderSize {p : String} {b : Bytes}
    {files : List (String × Bytes)} (h : (p, b) ∈ files) :
    16 + 4 * p.length ≤ entriesHeaderSize files := by
  induction files with
  | nil => cases h
  | cons f rest ih =>
    obtain ⟨q, c⟩ := f
    rcases List.mem_cons.mp h with h1 | h1
    · cases h1
      simp only [entriesHeaderSize]
      omega
    · have := ih h1
      simp only [entriesHeaderSize]
      omega

theorem indexEntries_all_inBounds (files : List (String × Bytes)) :
    (indexEntries (headerSize files) files).all
      (entryInBounds (headerSize files + framesLen files)) = true := by
  rw [List.all_eq_true]
  intro e he
  obtain ⟨b, _, _, _, _, h4⟩ := indexEntries_spec files (headerSize files) e he
  simp only [entryInBounds, decide_eq_true_eq]
  omega

theorem indexEntries_offset_ge (files : List (String × Bytes)) (off : Nat) :
    ∀ e ∈ indexEntries off files, off ≤ e.compressedOffset := by
  intro e he
  obtain ⟨b, _, _, _, h3, _⟩ := indexEntries_spec files off e he
  exact h3

theorem pairwiseDisjoint_indexEntries (files : List (String × Bytes)) (off : Nat) :
    pairwiseDisjoint (indexEntries off files) = true := by
  induction files generalizing off with
  | nil => rfl
  | cons f rest ih =>
    obtain ⟨p, b⟩ := f
    simp only [indexEntries, pairwiseDisjoint, Bool.and_eq_true]
    refine ⟨?_, ih _⟩
    rw [List.all_eq_true]
    intro e he
    have h3 := indexEntries_offset_ge rest (off + (frameEncode b).length) e he
    simp only [rangesDisjoint, Bool.or_eq_true, decide_eq_true_eq]
    exact Or.inl h3

theorem pathsUnique_indexEntries (files : List (String × Bytes)) (off : Nat)
    (h : (files.map Prod.fst).Nodup) : pathsUnique (indexEntries off files) = true := by
  induction files generalizing off with
  | nil => rfl
  | cons f rest ih =>
    obtain ⟨p, b⟩ := f
    simp only [List.map_cons, List.nodup_cons] at h
    simp only [indexEntries, pathsUnique, Bool.and_eq_true]
    refine ⟨?_, ih _ h.2⟩
    simp only [Bool.not_eq_true', List.any_eq_false]
    intro e he
    obtain ⟨c, hc, _, _, _, _⟩ := indexEntries_spec rest (off + (frameEncode b).length) e he
    have hep : e.path ∈ rest.map Prod.fst := List.mem_map_of_mem Prod.fst hc
    have hneq : e.path ≠ p := fun heq => h.1 (heq ▸ hep)
    simpa using hneq

theorem drop_append_add (xs ys : Bytes) (n : Nat) :
    (xs ++ ys).drop (xs.length + n) = ys.drop n := by
  induction xs with
  | nil => simp
  | cons x xs ih =>
    have hstep : (x :: xs).length + n = (xs.length + n) + 1 := by
      simp [List.length_cons]
      omega
    rw [List.cons_append, hstep, List.drop_succ_cons, ih]

theorem indexEntries_fields_lt (files : List (String × Bytes))
    (hsize : (encodeArchive files).length < 4294967296) :
    ∀ e ∈ indexEntries (headerSize files) files,
      e.path.length < 4294967296 ∧ e.compressedOffset < 4294967296
      ∧ e.compressedLength < 4294967296 ∧ e.decompressedLength < 4294967296 := by
  intro e he
  obtain ⟨b, hmem, h1, h2, h3, h4⟩ := indexEntries_spec files (headerSize files) e he
  have hp := pathSize_le_entriesHeaderSize hmem
  have hlen := encodeArchive_length files
  have hh : headerSize files = 12 + entriesHeaderSize files := rfl
  omega

theorem new_encode_eval (files : List (String × Bytes))
    (hsize : (encodeArchive files).length < 4294967296) :
    ZstdReader.new (encodeArchive files) =
      if pathsUnique (indexEntries (headerSize files) files) then
        .ok ⟨encodeArchive files, indexEntries (headerSize files) files⟩
      else .error .openDuplicatePath := by
  have hlen := encodeArchive_length files
  have hh : headerSize files = 12 + entriesHeaderSize files := rfl
  have hcnt16 := count_le_entriesHeaderSize files
  have hcount : files.length < 4294967296 := by omega
  have hv1 : (FORMAT_VERSION : Nat) < 4294967296 := by decide
  have hshape : encodeArchive files =
      MAGIC ++ (u32le FORMAT_VERSION ++ (u32le files.length ++
        (entriesBytes (indexEntries (headerSize files) files) ++ framesJoin files))) := by
    simp [encodeArchive, headerBytes, List.append_assoc]
  have hpe : parseEntries files.length
      (entriesBytes (indexEntries (headerSize files) files) ++ framesJoin files) =
      .ok (indexEntries (headerSize files) files, framesJoin files) := by
    rw [← indexEntries_length (headerSize files) files]
    exact parseEntries_entriesBytes _ _ (indexEntries_fields_lt files hsize)
  have hbounds : (indexEntries (headerSize files) files).all
      (entryInBounds (encodeArchive files).length) = true := by
    rw [hlen]
    exact indexEntries_all_inBounds files
  conv_lhs => rw [hshape]
  rw [ZstdReader.new]
  rw [takeN_append 4 MAGIC _ rfl]
  simp only [if_pos rfl,
    parseU32_u32le FORMAT_VERSION _ hv1,
    parseU32_u32le files.length _ hcount, hpe]
  rw [← hshape]
  simp only [hbounds, pairwiseDisjoint_indexEntries files (headerSize files), if_true]

theorem find_indexEntries (files : List (String × Bytes)) (off : Nat) (p : String)
    (b : Bytes) (hnd : (files.map Prod.fst).Nodup) (hmem : (p, b) ∈ files) :
    ∃ e, (indexEntries off files).find? (fun x => x.path == p) = some e
      ∧ e.path = p ∧ e.compressedLength = b.length ∧ e.decompressedLength = b.length
      ∧ off ≤ e.compressedOffset
      ∧ ((framesJoin files).drop (e.compressedOffset - off)).take e.compressedLength
          = b := by
  induction files generalizing off with
  | nil => cases hmem
  | cons f rest ih =>
    obtain ⟨q, c⟩ := f
    simp only [List.map_cons, List.nodup_cons] at hnd
    rcases List.mem_cons.mp hmem with h1 | h1
    · cases h1
      refine ⟨⟨p, off, (frameEncode b).length, b.length⟩, ?_, rfl, rfl, rfl, le_refl _, ?_⟩
      · rw [show indexEntries off ((p, b) :: rest) =
            (⟨p, off, (frameEncode b).length, b.length⟩ : IndexEntry) ::
              indexEntries (off + (frameEncode b).length) rest from rfl]
        rw [List.find?_cons_of_pos _ (by simp)]
      · simp only [framesJoin, frameEncode, Nat.sub_self, List.drop_zero]
        exact List.take_left b (framesJoin rest)
    · by_cases hpq : q = p
      · exact absurd (hpq ▸ List.mem_map_of_mem Prod.fst h1) hnd.1
      · obtain ⟨e, hfind, he1, he2, he3, he4, he5⟩ :=
          ih (off + (frameEncode c).length) hnd.2 h1
        refine ⟨e, ?_, he1, he2, he3, by omega, ?_⟩
        · rw [show indexEntries off ((q, c) :: rest) =
              (⟨q, off, (frameEncode c).length, c.length⟩ : IndexEntry) ::
                indexEntries (off + (frameEncode c).length) rest from rfl]
          rw [List.find?_cons_of_neg _ (by simp [hpq]), hfind]
        · simp only [frameEncode] at he4 he5
          have harith : e.compressedOffset - off =
              c.length + (e.compressedOffset - (off + c.length)) := by omega
          simp only [framesJoin, frameEncode]
          rw [show (c ++ framesJoin rest).drop (e.compressedOffset - off) =
              (framesJoin rest).drop (e.compressedOffset - (off + c.length)) by
            rw [harith, ← drop_append_add c (framesJoin rest)
              (e.compressedOffset - (off + c.length))]]
          exact he5

theorem extract_file_encode (files : List (String × Bytes)) (p : String) (b : Bytes)
    (hnd : (files.map Prod.fst).Nodup) (hmem : (p, b) ∈ files) :
    (ZstdReader.mk (encodeArchive files)
      (indexEntries (headerSize files) files)).extract_file p = .ok b := by
  obtain ⟨e, hfind, he1, he2, he3, he4, he5⟩ :=
    find_indexEntries files (headerSize files) p b hnd hmem
  unfold ZstdReader.extract_file
  rw [hfind]
  have hdrop : (encodeArchive files).drop e.compressedOffset =
      (framesJoin files).drop (e.compressedOffset - headerSize files) := by
    have hsplit : e.compressedOffset =
        (headerBytes files).length + (e.compressedOffset - headerSize files) := by
      rw [headerBytes_length]
      omega
    rw [encodeArchive]
    conv_lhs => rw [hsplit]
    exact drop_append_add _ _ _
  simp only [hdrop, he5, frameDecode, he3]
  simp

theorem openPkg_encode_ok (files : List (String × Bytes))
    (hsize : (encodeArchive files).length < 4294967296)
    (hnd : (files.map Prod.fst).Nodup) :
    ZstPackage.openPkg (encodeArchive files) =
      .ok ⟨⟨encodeArchive files, indexEntries (headerSize files) files⟩, false,
        (indexEntries (headerSize files) files).map (fun e => e.path), []⟩ := by
  simp only [ZstPackage.openPkg, ZstPackage.openWith, ZstdReader.newWith]
  rw [new_encode_eval files hsize,
    pathsUnique_indexEntries files (headerSize files) hnd]
  simp [ZstdReader.get_file_list]

theorem openPkg_encode_inv (files : List (String × Bytes))
    (hsize : (encodeArchive files).length < 4294967296) {pkg : ZstPackage}
    (h : ZstPackage.openPkg (encodeArchive files) = .ok pkg) :
    pkg = ⟨⟨encodeArchive files, indexEntries (headerSize files) files⟩, false,
      (indexEntries (headerSize files) files).map (fun e => e.path), []⟩ := by
  simp only [ZstPackage.openPkg, ZstPackage.openWith, ZstdReader.newWith] at h
  rw [new_encode_eval files hsize] at h
  by_cases hu : pathsUnique (indexEntries (headerSize files) files) = true
  · rw [if_pos hu] at h
    simp only [Except.ok.injEq] at h
    rw [← h]
    simp [ZstdReader.get_file_list]
  · rw [if_neg hu] at h
    simp at h

theorem getBytes_encode_ok (files : List (String × Bytes))
    (hsize : (encodeArchive files).length < 4294967296)
    (hnd : (files.map Prod.fst).Nodup) {pkg : ZstPackage}
    (hopen : ZstPackage.openPkg (encodeArchive files) = .ok pkg)
    (p : String) (b : Bytes) (hmem : (p, b) ∈ files) :
    (pkg.getBytes p).1 = .ok b := by
  rw [openPkg_encode_inv files hsize hopen]
  have hpin : p ∈ (indexEntries (headerSize files) files).map (fun e => e.path) := by
    rw [indexEntries_path]
    exact List.mem_map_of_mem Prod.fst hmem
  simp only [ZstPackage.getBytes, ZstPackage.assertPath]
  simp [hpin, extract_file_encode files p b hnd hmem]

/-- C6 (amended): the repository's `encode` is an unimplemented stub that
always fails, so this code itself never produces an archive; against the
spec-modelled encoder the round trip holds: for every set of (path, bytes)
pairs with pairwise-unique paths whose encoded archive fits the 32-bit
index fields, encoding then opening succeeds, and extracting each packed
path returns bytes byte-identical to the original bytes for that path. -/
theorem encode_roundTrip_modelled (files : List (String × Bytes))
    (hsize : (encodeArchive files).length < 4294967296)
    (hnd : (files.map Prod.fst).Nodup) :
    (ZstPackage.openPkg (encodeArchive files)).isOk = true
    ∧ ∀ pkg p b, ZstPackage.openPkg (encodeArchive files) = .ok pkg →
        (p, b) ∈ files → (pkg.getBytes p).1 = .ok b := by
  constructor
  · rw [openPkg_encode_ok files hsize hnd]
    rfl
  · intro pkg p b hopen hmem
    exact getBytes_encode_ok files hsize hnd hopen p b hmem

theorem encode_roundTrip_modelled_witness :
    (ZstPackage.openPkg (encodeArchive exampleFiles)).isOk = true
    ∧ (examplePkg.getBytes "b.bin").1 = .ok [9, 9] :=
  ⟨(encode_roundTrip_modelled exampleFiles (by decide) (by decide)).1,
   (encode_roundTrip_modelled exampleFiles (by decide) (by decide)).2 examplePkg
     "b.bin" [9, 9] (by rfl) (by decide)⟩

/-- C6 (counterexample): `ZstPackage.encode` never produces an archive —
it fails with the encode-not-implemented error on every call, so the round
trip through the repository's own encoder is impossible as stated. -/
theorem encode_not_implemented_counterexample :
    ZstPackage.encode = .error .encodeNotImplemented := rfl

/-- C1: extraction of a path absent from the file index fails with the
typed path-not-found error rather than crashing or returning bytes; the
failed call leaves the package state unchanged, every later call behaves
exactly as before the failure, and for a package opened from a
(spec-modelled) encoded archive every packed path still returns its
original bytes after the failed extract. -/
theorem getBytes_pathNotFound_then_ok (pkg : ZstPackage) (q : String)
    (hq : ¬ q ∈ pkg.fileIndex) :
    (pkg.getBytes q).1 = .error (.pathNotFound q)
    ∧ (pkg.getBytes q).2 = pkg
    ∧ (∀ p, ((pkg.getBytes q).2).getBytes p = pkg.getBytes p)
    ∧ ∀ files p b, (encodeArchive files).length < 4294967296 →
        (files.map Prod.fst).Nodup →
        ZstPackage.openPkg (encodeArchive files) = .ok pkg → (p, b) ∈ files →
        (((pkg.getBytes q).2).getBytes p).1 = .ok b := by
  refine ⟨?_, rfl, fun p => rfl, ?_⟩
  · simp [ZstPackage.getBytes, ZstPackage.assertPath, hq]
  · intro files p b hsize hnd hopen hmem
    exact getBytes_encode_ok files hsize hnd hopen p b hmem

theorem getBytes_pathNotFound_then_ok_witness :
    (examplePkg.getBytes "c.bin").1 = .error (.pathNotFound "c.bin")
    ∧ (examplePkg.getBytes "c.bin").2 = examplePkg
    ∧ ((examplePkg.getBytes "c.bin").2.getBytes "a.bin").1 = .ok [1, 2, 3] :=
  ⟨(getBytes_pathNotFound_then_ok examplePkg "c.bin" (by decide)).1,
   (getBytes_pathNotFound_then_ok examplePkg "c.bin" (by decide)).2.1,
   (getBytes_pathNotFound_then_ok examplePkg "c.bin" (by decide)).2.2.2 exampleFiles
     "a.bin" [1, 2, 3] (by decide) (by decide) (by rfl) (by decide)⟩

/-- C3: for a package opened from a (spec-modelled) encoded archive,
`list` returns exactly the packed paths in the archive's canonical
insertion order; `list` is a pure read of the prebuilt file index — it
performs no decompression, repeated calls and calls after any extraction
return the same sequence, and its result depends only on the file index
built at open time. -/
theorem list_canonical_order_pure (files : List (String × Bytes)) (pkg : ZstPackage)
    (hsize : (encodeArchive files).length < 4294967296)
    (hopen : ZstPackage.openPkg (encodeArchive files) = .ok pkg) :
    pkg.list = files.map Prod.fst
    ∧ pkg.list = pkg.fileIndex
    ∧ (∀ p, ((pkg.getBytes p).2).list = pkg.list)
    ∧ (∀ other : ZstPackage, other.fileIndex = pkg.fileIndex →
        other.list = pkg.list) := by
  refine ⟨?_, rfl, fun p => rfl, fun o ho => ho⟩
  rw [openPkg_encode_inv files hsize hopen]
  simp [ZstPackage.list, indexEntries_path]

theorem list_canonical_order_pure_witness :
    examplePkg.list = exampleFiles.map Prod.fst
    ∧ examplePkg.list = examplePkg.fileIndex
    ∧ ((examplePkg.getBytes "a.bin").2).list = examplePkg.list :=
  ⟨(list_canonical_order_pure exampleFiles examplePkg (by decide) (by rfl)).1,
   (list_canonical_order_pure exampleFiles examplePkg (by decide) (by rfl)).2.1,
   (list_canonical_order_pure exampleFiles examplePkg (by decide) (by rfl)).2.2.1
     "a.bin"⟩

theorem getBlob_snd (pkg : ZstPackage) (path : String) :
    (pkg.getBlob path).2 = pkg := by
  unfold ZstPackage.getBlob
  rcases h : pkg.getBytes path with ⟨r, pkg1⟩
  have h2 : pkg1 = pkg := by
    have h3 := congrArg Prod.snd h
    exact h3.symm
  cases r <;> simp [h2]

theorem lookup_append_of_none (cache l2 : List (String × String)) (p : String)
    (h : cache.lookup p = none) : (cache ++ l2).lookup p = l2.lookup p := by
  induction cache with
  | nil => simp
  | cons kv rest ih =>
    obtain ⟨k, v⟩ := kv
    cases hk : p == k with
    | true => simp [List.lookup, hk] at h
    | false =>
      simp only [List.cons_append, List.lookup, hk] at h ⊢
      exact ih h

theorem notMem_live_revokeAll (cache : List (String × String)) (env : UrlEnv)
    (x : String) (h : ¬ x ∈ env.live) : ¬ x ∈ (revokeAll env cache).live := by
  induction cache generalizing env with
  | nil => exact h
  | cons kv rest ih =>
    show ¬ x ∈ (revokeAll (revokeObjectURL env kv.2) rest).live
    apply ih
    intro hx
    simp only [revokeObjectURL, List.mem_filter] at hx
    exact h hx.1

theorem revokeAll_removes (cache : List (String × String)) (env : UrlEnv) :
    ∀ pu ∈ cache, ¬ pu.2 ∈ (revokeAll env cache).live := by
  induction cache generalizing env with
  | nil => intro pu hpu; cases hpu
  | cons kv rest ih =>
    intro pu hpu
    rcases List.mem_cons.mp hpu with h1 | h1
    · subst h1
      show ¬ pu.2 ∈ (revokeAll (revokeObjectURL env pu.2) rest).live
      apply notMem_live_revokeAll
      simp [revokeObjectURL, List.mem_filter]
    · show ¬ pu.2 ∈ (revokeAll (revokeObjectURL env kv.2) rest).live
      exact ih _ pu h1

/-- C8: `getURL` maintains the path-to-URL cache: after a successful call,
a second call for the same path with no intervening dispose returns the
identical URL string with package, cache and URL registry unchanged — in
particular no new object URL is created; a failed call likewise repeats
identically and creates nothing; `dispose` empties the cache and revokes
every cached URL. -/
theorem getURL_cache_and_dispose :
    (∀ (pkg : ZstPackage) (env : UrlEnv) (path url : String) (pkg1 : ZstPackage)
        (env1 : UrlEnv), pkg.getURL env path = (.ok url, pkg1, env1) →
        pkg1.getURL env1 path = (.ok url, pkg1, env1))
    ∧ (∀ (pkg : ZstPackage) (env : UrlEnv) (path : String) (e : ZstError)
        (pkg1 : ZstPackage) (env1 : UrlEnv),
        pkg.getURL env path = (.error e, pkg1, env1) →
        pkg1.getURL env1 path = (.error e, pkg1, env1))
    ∧ (∀ (pkg : ZstPackage) (env : UrlEnv),
        ((pkg.dispose env).1).urlCache = []
        ∧ ∀ pu ∈ pkg.urlCache, ¬ pu.2 ∈ ((pkg.dispose env).2).live) := by
  refine ⟨?_, ?_, ?_⟩
  · intro pkg env path url pkg1 env1 h
    cases hl : pkg.urlCache.lookup path with
    | some u =>
      simp only [ZstPackage.getURL, hl] at h
      simp only [Prod.mk.injEq, Except.ok.injEq] at h
      obtain ⟨h1, h2, h3⟩ := h
      subst h1
      subst h2
      subst h3
      simp only [ZstPackage.getURL, hl]
    | none =>
      simp only [ZstPackage.getURL, hl] at h
      rcases hb : pkg.getBlob path with ⟨rb, pkgB⟩
      have hpkgB : pkgB = pkg := by
        have h3 := getBlob_snd pkg path
        rw [hb] at h3
        exact h3
      rw [hb] at h
      cases rb with
      | error e0 => simp at h
      | ok blob =>
        simp only [createObjectURL, Prod.mk.injEq, Except.ok.injEq] at h
        obtain ⟨h1, h2, h3⟩ := h
        subst h1
        subst h3
        have hcache : pkg1.urlCache.lookup path = some ("blob:" ++ toString env.nextId) := by
          rw [← h2]
          simp only
          rw [lookup_append_of_none _ _ _ (by rw [hpkgB]; exact hl)]
          simp [List.lookup]
        simp only [ZstPackage.getURL, hcache]
  · intro pkg env path e pkg1 env1 h
    cases hl : pkg.urlCache.lookup path with
    | some u => simp only [ZstPackage.getURL, hl] at h; simp at h
    | none =>
      simp only [ZstPackage.getURL, hl] at h
      rcases hb : pkg.getBlob path with ⟨rb, pkgB⟩
      have hpkgB : pkgB = pkg := by
        have h3 := getBlob_snd pkg path
        rw [hb] at h3
        exact h3
      rw [hb] at h
      cases rb with
      | ok blob => simp [createObjectURL] at h
      | error e0 =>
        simp only [Prod.mk.injEq, Except.error.injEq] at h
        obtain ⟨h1, h2, h3⟩ := h
        subst h1
        subst h2
        subst h3
        simp only [ZstPackage.getURL]
        rw [show pkgB.urlCache.lookup path = none from by rw [hpkgB]; exact hl]
        rw [show pkgB.getBlob path = (.error e0, pkgB) from by
          rw [hpkgB]
          rw [hb]
          rw [hpkgB]]
  · intro pkg env
    exact ⟨rfl, revokeAll_removes pkg.urlCache env⟩

theorem getURL_cache_and_dispose_witness :
    examplePkgCached.getURL exampleEnvAfter "a.bin" =
      (.ok "blob:0", examplePkgCached, exampleEnvAfter)
    ∧ ((examplePkgCached.dispose exampleEnvAfter).1).urlCache = []
    ∧ ¬ ("a.bin", "blob:0").2 ∈ ((examplePkgCached.dispose exampleEnvAfter).2).live :=
  ⟨getURL_cache_and_dispose.1 examplePkg exampleEnv "a.bin" "blob:0" examplePkgCached
     exampleEnvAfter (by rfl),
   (getURL_cache_and_dispose.2.2 examplePkgCached exampleEnvAfter).1,
   (getURL_cache_and_dispose.2.2 examplePkgCached exampleEnvAfter).2
     ("a.bin", "blob:0") (by decide)⟩
